import Mathlib

/-!
Shallow embedding of the CST airfoil engine of `cst_modeling/foil.py`
(repository `cst-modeling3d`).

Numeric model: the Python code computes with IEEE doubles; the embedding
works in an abstract linear ordered field `K` (instantiated at `ℝ` in all
theorems), i.e. exact real arithmetic.  Transcendental library functions
(`np.cos`, `np.exp`, `np.log`, `np.sin`, `np.sqrt`, `np.power` with real
exponent) are supplied through a record `Transcend K` of function
parameters, instantiated with the corresponding `Real` functions.

Curves (`numpy` 1-d arrays) are embedded as `List K`; `np.max`, `np.min`
and `np.argmax` are embedded as `npMax`, `npMin`, `npArgmax` below.
Fallible code (Python `raise`) is embedded with `Option`.
-/

set_option linter.unusedSectionVars false

namespace CstModeling

/-- Embedding of `np.max` of an array (maximum of the elements; the code
only applies it to nonempty arrays). -/
def npMax {K : Type*} [LinearOrder K] [Zero K] (l : List K) : K :=
  l.foldl max (l.headD 0)

/-- Embedding of `np.min` of an array. -/
def npMin {K : Type*} [LinearOrder K] [Zero K] (l : List K) : K :=
  l.foldl min (l.headD 0)

/-- Embedding of `np.argmax` of an array: the first index holding the
maximum value. -/
def npArgmax {K : Type*} [LinearOrder K] [Zero K] (l : List K) : ℕ :=
  l.findIdx (fun a => decide (npMax l ≤ a))

section NpLemmas

variable {K : Type*} [LinearOrder K] [Zero K]

theorem foldl_max_eq_or_mem (l : List K) : ∀ a : K,
    List.foldl max a l = a ∨ List.foldl max a l ∈ l := by
  induction l with
  | nil => intro a; left; rfl
  | cons b t ih =>
    intro a
    rcases ih (max a b) with h | h
    · rcases max_choice a b with hm | hm
      · left; simpa [List.foldl, hm] using h
      · right; simp only [List.foldl] at h ⊢
        rw [h, hm]; exact List.mem_cons_self _ _
    · right; simp only [List.foldl]
      exact List.mem_cons_of_mem _ h

theorem le_foldl_max (l : List K) : ∀ a : K, a ≤ List.foldl max a l := by
  induction l with
  | nil => intro a; exact le_refl a
  | cons b t ih =>
    intro a
    exact le_trans (le_max_left a b) (ih (max a b))

theorem le_foldl_max_of_mem {l : List K} {x : K} (hx : x ∈ l) :
    ∀ a : K, x ≤ List.foldl max a l := by
  induction l with
  | nil => cases hx
  | cons b t ih =>
    intro a
    rcases List.mem_cons.mp hx with h | h
    · subst h
      exact le_trans (le_max_right a x) (le_foldl_max t _)
    · exact ih h _

theorem npMax_mem {l : List K} (h : l ≠ []) : npMax l ∈ l := by
  cases l with
  | nil => exact absurd rfl h
  | cons a t =>
    rcases foldl_max_eq_or_mem (a :: t) a with h1 | h1
    · rw [npMax, List.headD_cons, h1]; exact List.mem_cons_self _ _
    · rw [npMax, List.headD_cons]; exact h1

theorem le_npMax_of_mem {l : List K} {x : K} (hx : x ∈ l) : x ≤ npMax l := by
  cases l with
  | nil => cases hx
  | cons a t => exact le_foldl_max_of_mem hx _

theorem npArgmax_lt_length {l : List K} (h : l ≠ []) :
    npArgmax l < l.length := by
  apply List.findIdx_lt_length_of_exists
  exact ⟨npMax l, npMax_mem h, by simp⟩

theorem npArgmax_getD (l : List K) (h : l ≠ []) :
    l.getD (npArgmax l) 0 = npMax l := by
  have hlt : npArgmax l < l.length := npArgmax_lt_length h
  have h1 : l.getD (npArgmax l) 0 = l.get ⟨npArgmax l, hlt⟩ := by
    rw [List.getD_eq_getElem?_getD, List.getElem?_eq_getElem hlt]
    rfl
  have h2 := @List.findIdx_get _ (fun a => decide (npMax l ≤ a)) l hlt
  simp only [decide_eq_true_eq] at h2
  have h3 : l.get ⟨npArgmax l, hlt⟩ ≤ npMax l :=
    le_npMax_of_mem (l.get_mem _ _)
  rw [h1]
  exact le_antisymm h3 h2

end NpLemmas

/-- Transcendental functions used by the code (`np.cos`, `np.sin`,
`np.exp`, `np.log`, `np.sqrt`, `np.power` with a real exponent, `np.pi`),
abstracted as parameters of the embedding. -/
structure Transcend (K : Type*) where
  cos : K → K
  sin : K → K
  exp : K → K
  log : K → K
  sqrt : K → K
  pw : K → K → K
  pi : K

/-- The intended instantiation over the real numbers. -/
noncomputable def realT : Transcend ℝ :=
  ⟨Real.cos, Real.sin, Real.exp, Real.log, Real.sqrt,
    fun a b => a ^ b, Real.pi⟩

@[simp] theorem realT_cos (x : ℝ) : realT.cos x = Real.cos x := rfl
@[simp] theorem realT_sin (x : ℝ) : realT.sin x = Real.sin x := rfl
@[simp] theorem realT_exp (x : ℝ) : realT.exp x = Real.exp x := rfl
@[simp] theorem realT_log (x : ℝ) : realT.log x = Real.log x := rfl
@[simp] theorem realT_sqrt (x : ℝ) : realT.sqrt x = Real.sqrt x := rfl
@[simp] theorem realT_pw (x y : ℝ) : realT.pw x y = x ^ y := rfl
@[simp] theorem realT_pi : realT.pi = Real.pi := rfl

section Defs

variable {K : Type*} [LinearOrderedField K]

/-- Embedding of `clustcos(i, nn, a0, a1, beta)` (`foil.py`, lines
776-797): cosine-clustered point distribution on `[0,1]`. -/
def clustcos (T : Transcend K) (i nn : ℕ) (a0 a1 beta : K) : K :=
  let aa := T.pw ((1 - T.cos (a0 * T.pi)) / 2) beta
  let dd := T.pw ((1 - T.cos (a1 * T.pi)) / 2) beta - aa
  let yt := (i : K) / ((nn : K) - 1)
  let a := T.pi * (a0 * (1 - yt) + a1 * yt)
  (T.pw ((1 - T.cos a) / 2) beta - aa) / dd

/-- The binomial factor `factorial(n1)/factorial(i)/factorial(n1-i)`
computed exactly as in the source (`xk_i_n` with `n1 = n_order - 1`). -/
def xkin (K : Type*) [LinearOrderedField K] (n1 i : ℕ) : K :=
  (Nat.factorial n1 : K) / (Nat.factorial i : K) / (Nat.factorial (n1 - i) : K)

/-- The CST shape function `s_psi` of `cst_curve`: the inner loop
`sum coef[i] * xk_i_n * x^i * (1-x)^(n_order-1-i)`. -/
def cst_shape (coef : List K) (xp : K) : K :=
  ∑ i in Finset.range coef.length,
    coef.getD i 0 * xkin K (coef.length - 1) i * xp ^ i
      * (1 - xp) ^ (coef.length - 1 - i)

/-- The point loop of `cst_curve`: `y[ip] = C_n1n2 * s_psi` at every
sample, followed by the forced boundary values `y[0] = 0.0` and
`y[-1] = 0.0`. -/
def cstY (T : Transcend K) (coef : List K) (xs : List K) (xn1 xn2 : K) :
    List K :=
  let y := xs.map (fun xp => T.pw xp xn1 * T.pw (1 - xp) xn2 * cst_shape coef xp)
  (y.set 0 0).set (y.length - 1) 0

/-- Resolution of the optional `x` argument of `cst_curve`: `None` means
the default `clustcos` distribution (defaults `a0=0.0079`, `a1=0.96`,
`beta=1.0`); a supplied array whose size differs from `nn` raises
(embedded as `none`). -/
def resolveX (T : Transcend K) (nn : ℕ) (x : Option (List K)) :
    Option (List K) :=
  match x with
  | none => some ((List.range nn).map
      (fun i => clustcos T i nn (79 / 10000) (96 / 100) 1))
  | some xs => if xs.length = nn then some xs else none

/-- Embedding of `cst_curve(nn, coef, x, xn1, xn2)` (`foil.py`, lines
799-838); returns the pair `(x, y)`, or `none` on the size-mismatch
exception. -/
def cst_curve (T : Transcend K) (nn : ℕ) (coef : List K)
    (x : Option (List K)) (xn1 xn2 : K) : Option (List K × List K) :=
  (resolveX T nn x).map (fun xs => (xs, cstY T coef xs xn1 xn2))

/-- Embedding of `cst_foil(nn, coef_upp, coef_low, x, t, tail)`
(`foil.py`, lines 315-361), up to and including the tail addition; the
returned tuple is `(x, yu, yl, t0)`.  The trailing leading-edge-radius
computation `R0` (external cubic interpolation via `scipy.interp1d`
followed by `find_circle_3p`) is not part of this embedding — the circle
solver itself is embedded separately as `find_circle_3p`. -/
def cst_foil (T : Transcend K) (nn : ℕ) (coef_upp coef_low : List K)
    (x : Option (List K)) (t : Option K) (tail : K) :
    Option (List K × List K × List K × K) :=
  (resolveX T nn x).map (fun x_ =>
    let yu0 := cstY T coef_upp x_ (1 / 2) 1
    let yl0 := cstY T coef_low x_ (1 / 2) 1
    let thick := List.zipWith (fun a b => a - b) yu0 yl0
    let it := npArgmax thick
    let t00 := thick.getD it 0
    match t with
    | some tv =>
      let r := (tv - tail * x_.getD it 0) / t00
      (x_,
        List.zipWith (fun yv xv => yv + (1 / 2) * tail * xv)
          (yu0.map (fun v => v * r)) x_,
        List.zipWith (fun yv xv => yv - (1 / 2) * tail * xv)
          (yl0.map (fun v => v * r)) x_,
        tv)
    | none =>
      (x_,
        List.zipWith (fun yv xv => yv + (1 / 2) * tail * xv) yu0 x_,
        List.zipWith (fun yv xv => yv - (1 / 2) * tail * xv) yl0 x_,
        t00))

/-- The two bump kinds of `add_bump`: Gaussian (`'G'`) and Hicks-Henne
(everything else, the code passes `'H'`). -/
inductive BumpKind where
  | G : BumpKind
  | H : BumpKind
deriving DecidableEq

/-- The Gaussian branch of `add_bump`: pointwise
`y[i] + h*exp(-(x[i]-xc)^2/2/sigma^2)` with the asymmetric widening of
`sigma` near the domain edges.  The loop runs over the indices of `x`;
entries of `y` beyond the length of `x` are untouched. -/
def addBumpG (T : Transcend K) (xc h s : K) : List K → List K → List K
  | _, [] => []
  | [], yv :: ys => yv :: addBumpG T xc h s [] ys
  | xv :: xs, yv :: ys =>
    let sigma :=
      if xc - s < 0 ∧ xv < xc then xc / (7 / 2)
      else if xc + s > 1 ∧ xv > xc then (1 - xc) / (7 / 2)
      else s / 6
    let aa := -((xv - xc) ^ 2) / 2 / sigma ^ 2
    (yv + h * T.exp aa) :: addBumpG T xc h s xs ys

/-- The 201-point scan of the Hicks-Henne power search: computes the pair
`(x1, x2)` bracketing the 1%-of-peak width of `sin(pi*x^s0)^Pow`. -/
def hhScan (T : Transcend K) (s0 hm xc : K) (Pow : ℕ) : K × K :=
  (List.range 201).foldl (fun p (i : ℕ) =>
    let xx : K := (i : K) * (5 / 1000)
    let rr := T.pi * T.pw xx s0
    let yy := hm * T.sin rr ^ Pow
    let x1 := if yy > (1 / 100) * hm ∧ p.1 < 0 ∧ xx < xc then xx else p.1
    let x2 := if yy < (1 / 100) * hm ∧ p.2 < 0 ∧ xx > xc then xx else p.2
    (x1, x2)) (-1, -1)

/-- The `while Pow < 100 and span > s` search loop of the Hicks-Henne
branch, as fuelled structural recursion (the fuel bound `100` dominates
the loop's own `Pow < 100` bound). -/
def hhPow (T : Transcend K) (s0 hm xc s : K) : ℕ → ℕ → K → ℕ
  | 0, Pow, _ => Pow
  | fuel + 1, Pow, span =>
    if Pow < 100 ∧ span > s then
      let p := hhScan T s0 hm xc Pow
      let x2 := if p.2 < 0 then 1 else p.2
      hhPow T s0 hm xc s fuel (Pow + 1) (x2 - p.1)
    else Pow

/-- The Hicks-Henne application loop: pointwise
`y[i] + h*sin(pi*x[i]^s0)^Pow`. -/
def addBumpH (T : Transcend K) (s0 h : K) (Pow : ℕ) :
    List K → List K → List K
  | _, [] => []
  | [], yv :: ys => yv :: addBumpH T s0 h Pow [] ys
  | xv :: xs, yv :: ys =>
    let rr := T.pi * T.pw xv s0
    (yv + h * T.sin rr ^ Pow) :: addBumpH T s0 h Pow xs ys

/-- Embedding of `add_bump(x, y, xc, h, s, kind)` (`foil.py`, lines
1091-1159).  An invalid bump centre (`xc <= 0 or xc >= 1`) is reported
(a print, not an exception) and the curve is returned unchanged. -/
def add_bump (T : Transcend K) (x y : List K) (xc h s : K)
    (kind : BumpKind) : List K :=
  if xc ≤ 0 ∨ 1 ≤ xc then y
  else
    match kind with
    | .G => addBumpG T xc h s x y
    | .H =>
      let s0 := T.log (1 / 2) / T.log xc
      let Pow := hhPow T s0 |h| xc s 100 1 1
      addBumpH T s0 h Pow x y

/-- The bump-kind selection of `foil_bump_modify`: Hicks-Henne near the
edges (`xc < 0.1 or xc > 0.9`), Gaussian otherwise. -/
def fbmKind (xc : K) : BumpKind :=
  if xc < 1 / 10 ∨ xc > 9 / 10 then .H else .G

/-- The upper curve of `foil_bump_modify` after the bump step: the bump
(scaled by the current maximum thickness `t0`) is added to the upper
side iff `side > 0`. -/
def fbmBumpedU (T : Transcend K) (x yu yl : List K) (xc h s : K)
    (side : ℤ) : List K :=
  if side > 0 then
    add_bump T x yu xc (h * npMax (List.zipWith (fun a b => a - b) yu yl)) s
      (fbmKind xc)
  else yu

/-- The lower curve of `foil_bump_modify` after the bump step. -/
def fbmBumpedL (T : Transcend K) (x yu yl : List K) (xc h s : K)
    (side : ℤ) : List K :=
  if side > 0 then yl
  else
    add_bump T x yl xc (h * npMax (List.zipWith (fun a b => a - b) yu yl)) s
      (fbmKind xc)

/-- The index `it = np.argmax(yu_new - yl_new)` of `foil_bump_modify`,
taken after the bump has been applied. -/
def fbmIt (T : Transcend K) (x yu yl : List K) (xc h s : K)
    (side : ℤ) : ℕ :=
  npArgmax (List.zipWith (fun a b => a - b)
    (fbmBumpedU T x yu yl xc h s side) (fbmBumpedL T x yu yl xc h s side))

/-- Embedding of `foil_bump_modify(x, yu, yl, xc, h, s, side, n_order)`
(`foil.py`, lines 386-440) with `n_order = 0` (the value fixed by the
claims; the `n_order > 0` branch re-fits CST coefficients through the
external least-squares solver and is not embedded).  After the bump is
added to the chosen side, the opposite side is rescaled by
`(t0 - tu)/tl` (resp. `(t0 - tl)/tu`) built from the absolute values of
the two surfaces at `it`. -/
def foil_bump_modify (T : Transcend K) (x yu yl : List K) (xc h s : K)
    (side : ℤ) : List K × List K :=
  let t0 := npMax (List.zipWith (fun a b => a - b) yu yl)
  let yu_new := fbmBumpedU T x yu yl xc h s side
  let yl_new := fbmBumpedL T x yu yl xc h s side
  let it := fbmIt T x yu yl xc h s side
  let tu := |yu_new.getD it 0|
  let tl := |yl_new.getD it 0|
  if side > 0 then
    (yu_new, yl_new.map (fun v => (t0 - tu) / tl * v))
  else
    (yu_new.map (fun v => (t0 - tl) / tu * v), yl_new)

/-- Embedding of `find_circle_3p(p1, p2, p3)` (`foil.py`, lines 840-869),
exactly as written in the source, including the expression
`(x32*xy21 - x21*xy32) / 2 * (y21*x32 - y32*x21)` for `y0` (note: by
operator precedence this multiplies by the determinant).  Returns
`(R, (x0, y0))`, or `none` on the collinearity exception. -/
def find_circle_3p (T : Transcend K) (p1 p2 p3 : K × K) :
    Option (K × (K × K)) :=
  let x21 := p2.1 - p1.1
  let y21 := p2.2 - p1.2
  let x32 := p3.1 - p2.1
  let y32 := p3.2 - p2.2
  if x21 * y32 - x32 * y21 = 0 then none
  else
    let xy21 := p2.1 * p2.1 - p1.1 * p1.1 + p2.2 * p2.2 - p1.2 * p1.2
    let xy32 := p3.1 * p3.1 - p2.1 * p2.1 + p3.2 * p3.2 - p2.2 * p2.2
    let y0 := (x32 * xy21 - x21 * xy32) / 2 * (y21 * x32 - y32 * x21)
    let x0 := (xy21 - 2 * y0 * y21) / (2 * x21)
    let R := T.sqrt ((p1.1 - x0) ^ 2 + (p1.2 - y0) ^ 2)
    some (R, (x0, y0))

/-- The interior 3-point osculating-circle curvature of
`curve_curvature`, at index `i` (the code reads points `i-1`, `i`,
`i+1`); uses Heron's formula in the stabilised form
`4*sqrt(t)/(a*b*c)`, zero for degenerate triples (`R <= 1e-12`), signed
by the cross-product orientation. -/
def curvAt (T : Transcend K) (x y : List K) (i : ℕ) : K :=
  let x1 := x.getD (i - 1) 0
  let y1 := y.getD (i - 1) 0
  let x2 := x.getD i 0
  let y2 := y.getD i 0
  let x3 := x.getD (i + 1) 0
  let y3 := y.getD (i + 1) 0
  let a := T.sqrt ((x1 - x2) ^ 2 + (y1 - y2) ^ 2)
  let b := T.sqrt ((x2 - x3) ^ 2 + (y2 - y3) ^ 2)
  let c := T.sqrt ((x3 - x1) ^ 2 + (y3 - y1) ^ 2)
  let p := (1 / 2) * (a + b + c)
  let tt := p * (p - a) * (p - b) * (p - c)
  let R := a * b * c
  let curv := if R ≤ 1 / 10 ^ 12 then 0 else 4 * T.sqrt tt / R
  let a1 := x2 - x1
  let a2 := y2 - y1
  let b1 := x3 - x1
  let b2 := y3 - y1
  if a1 * b2 < a2 * b1 then -curv else curv

/-- Embedding of `curve_curvature(x, y)` (`foil.py`, lines 871-917):
interior points get the 3-point curvature, the endpoints copy their
nearest interior neighbour; fewer than 3 points raises (`none`). -/
def curve_curvature (T : Transcend K) (x y : List K) : Option (List K) :=
  let nn := x.length
  if nn < 3 then none
  else some ((List.range nn).map (fun i =>
    if i = 0 then curvAt T x y 1
    else if i = nn - 1 then curvAt T x y (nn - 2)
    else curvAt T x y i))

/-- Embedding of `foil_tcc(x, yu, yl)` (`foil.py`, lines 442-465):
returns `(thickness, curv_u, curv_l, camber)` (the negative-thickness
print is informational only). -/
def foil_tcc (T : Transcend K) (x yu yl : List K) :
    Option (List K × List K × List K × List K) :=
  match curve_curvature T x yu, curve_curvature T x yl with
  | some cu, some cl =>
    some (List.zipWith (fun a b => a - b) yu yl, cu, cl,
      List.zipWith (fun a b => (1 / 2) * (a + b)) yu yl)
  | _, _ => none

/-- Embedding of `check_valid(x, yu, yl, RLE, neg_tcri)` (`foil.py`,
lines 467-560): the fixed-length-10 flag list of rules 1-7 (slots 8-10
always 0).  `int(0.1*nn)` of rule 7 is modelled as `nn / 10` (natural
truncating division). -/
def check_valid (T : Transcend K) (x yu yl : List K) (RLE neg_tcri : K) :
    Option (List ℕ) :=
  (foil_tcc T x yu yl).map (fun q =>
    let thickness := q.1
    let curv_u := q.2.1
    let curv_l := q.2.2.1
    let camber := q.2.2.2
    let nn := x.length
    let r1 : ℕ := if npMin thickness < neg_tcri then 1 else 0
    let i_max := npArgmax thickness
    let t0 := thickness.getD i_max 0
    let x_max := x.getD i_max 0
    let r2 : ℕ := if x_max < 15 / 100 ∨ x_max > 75 / 100 then 1 else 0
    let n_extreme := ((List.range (nn - 2)).filter (fun i =>
      decide ((thickness.getD (i + 2) 0 - thickness.getD (i + 1) 0)
        * (thickness.getD i 0 - thickness.getD (i + 1) 0) ≥ 0))).length
    let r3 : ℕ := if n_extreme > 2 then 1 else 0
    let cur_max_u : K := (List.range nn).foldl (fun m i =>
      if x.getD i 0 < 1 / 10 then m else max m |curv_u.getD i 0|) 0
    let cur_max_l : K := (List.range nn).foldl (fun m i =>
      if x.getD i 0 < 1 / 10 then m else max m |curv_l.getD i 0|) 0
    let r4 : ℕ := if cur_max_u > 5 ∨ cur_max_l > 5 then 1 else 0
    let cam_max : K := (List.range nn).foldl (fun m i =>
      if x.getD i 0 < 2 / 10 ∨ x.getD i 0 > 7 / 10 then m
      else max m |camber.getD i 0|) 0
    let r5 : ℕ := if cam_max > 25 / 1000 then 1 else 0
    let r6 : ℕ := if (RLE > 0 ∧ RLE < 5 / 1000) ∨ (RLE > 0 ∧ RLE / t0 < 1 / 100)
      then 1 else 0
    let ii := nn / 10 + 1
    let a0 := t0 / x_max
    let au := yu.getD ii 0 / x.getD ii 0 / a0
    let al := -(yl.getD ii 0) / x.getD ii 0 / a0
    let r7 : ℕ := if au < 1 ∨ al < 1 then 1 else 0
    [r1, r2, r3, r4, r5, r6, r7, 0, 0, 0])

/-- Embedding of `foil_increment(x, yu, yl, coef_upp, coef_low, t)`
(`foil.py`, lines 563-626).  Both incremental curves are guarded on
`coef_upp is not None`, exactly as in the source; a `None` `coef_low`
with a present `coef_upp` crashes in Python (`None` has no `.shape`) and
is embedded as `none`. -/
def foil_increment (T : Transcend K) (x yu yl : List K)
    (coef_upp coef_low : Option (List K)) (t : Option K) :
    Option (List K × List K) :=
  let nn := x.length
  let yu_i : Option (List K) :=
    match coef_upp with
    | some cu => (cst_curve T nn cu (some x) (1 / 2) 1).map (fun p => p.2)
    | none => some (List.replicate nn 0)
  let yl_i : Option (List K) :=
    match coef_upp with
    | some _ =>
      match coef_low with
      | some clw => (cst_curve T nn clw (some x) (1 / 2) 1).map (fun p => p.2)
      | none => none
    | none => some (List.replicate nn 0)
  match yu_i, yl_i with
  | some yui, some yli =>
    let tail := yu.getD (yu.length - 1) 0 - yl.getD (yl.length - 1) 0
    let yu1 := if tail > 0 then
      List.zipWith (fun yv xv => yv - (1 / 2) * tail * xv) yu x else yu
    let yl1 := if tail > 0 then
      List.zipWith (fun yv xv => yv + (1 / 2) * tail * xv) yl x else yl
    let yu2 := List.zipWith (fun a b => a + b) yu1 yui
    let yl2 := List.zipWith (fun a b => a + b) yl1 yli
    let thick := List.zipWith (fun a b => a - b) yu2 yl2
    let it := npArgmax thick
    let t0 := thick.getD it 0
    let yu3 := match t with
      | some tv => yu2.map (fun v => v * ((tv - tail * x.getD it 0) / t0))
      | none => yu2
    let yl3 := match t with
      | some tv => yl2.map (fun v => v * ((tv - tail * x.getD it 0) / t0))
      | none => yl2
    let yu4 := if tail > 0 then
      List.zipWith (fun yv xv => yv + (1 / 2) * tail * xv) yu3 x else yu3
    let yl4 := if tail > 0 then
      List.zipWith (fun yv xv => yv - (1 / 2) * tail * xv) yl3 x else yl3
    some (yu4, yl4)
  | _, _ => none

/-- The design-matrix entry `A[ip][i]` of `fit_curve` (`foil.py`, lines
1161-1198): Bernstein term times class function, evaluated at the
rescaled abscissa `x_ = (x[ip] - x[0]) / (x[-1] - x[0])`. -/
def fitA (T : Transcend K) (x : List K) (n_order : ℕ) (xn1 xn2 : K)
    (ip i : ℕ) : K :=
  let L := x.getD (x.length - 1) 0 - x.getD 0 0
  let x_ := (x.getD ip 0 - x.getD 0 0) / L
  xkin K (n_order - 1) i * x_ ^ i * (1 - x_) ^ (n_order - 1 - i)
    * (T.pw x_ xn1 * T.pw (1 - x_) xn2)

/-- The right-hand side `b[ip] = y[ip] - x_[ip]*y[-1]` of `fit_curve`
(tail removal). -/
def fitB (x y : List K) (ip : ℕ) : K :=
  let L := x.getD (x.length - 1) 0 - x.getD 0 0
  let x_ := (x.getD ip 0 - x.getD 0 0) / L
  y.getD ip 0 - x_ * y.getD (y.length - 1) 0

/-- The squared residual of the linear system `A c = b` solved by
`fit_curve`'s call to the least-squares routine. -/
def lstsqResid (T : Transcend K) (x y : List K) (n_order : ℕ)
    (xn1 xn2 : K) (c : List K) : K :=
  ∑ ip in Finset.range x.length,
    ((∑ i in Finset.range n_order, fitA T x n_order xn1 xn2 ip i * c.getD i 0)
      - fitB x y ip) ^ 2

/-- Modelled contract of the external least-squares solver
(`numpy.linalg.lstsq(A, b, rcond=None)`) called by `fit_curve`: the
returned coefficient vector has `n_order` entries and minimises the
squared residual of `A c = b` (numpy additionally picks the minimum-norm
minimiser; only the minimising property is needed here).
`fit_curve(x, y, n_order)` returns exactly such a vector. -/
def IsLstsqSol (T : Transcend K) (x y : List K) (n_order : ℕ)
    (xn1 xn2 : K) (c : List K) : Prop :=
  c.length = n_order ∧
    ∀ c' : List K, lstsqResid T x y n_order xn1 xn2 c
      ≤ lstsqResid T x y n_order xn1 xn2 c'

end Defs

section ListLemmas

variable {K : Type*} [LinearOrderedField K]

theorem getD_eq_getElem_of_lt (l : List K) (i : ℕ) (h : i < l.length) :
    l.getD i 0 = l[i] := by
  rw [List.getD_eq_getElem?_getD, List.getElem?_eq_getElem h]
  rfl

theorem getD_zipWith (f : K → K → K) (l1 l2 : List K) (i : ℕ)
    (h1 : i < l1.length) (h2 : i < l2.length) :
    (List.zipWith f l1 l2).getD i 0 = f (l1.getD i 0) (l2.getD i 0) := by
  have hz : i < (List.zipWith f l1 l2).length := by
    rw [List.length_zipWith]; exact lt_min h1 h2
  rw [getD_eq_getElem_of_lt _ _ hz, getD_eq_getElem_of_lt _ _ h1,
    getD_eq_getElem_of_lt _ _ h2, List.getElem_zipWith]

theorem getD_map (f : K → K) (l : List K) (i : ℕ) (h : i < l.length) :
    (l.map f).getD i 0 = f (l.getD i 0) := by
  have hm : i < (l.map f).length := by rwa [List.length_map]
  rw [getD_eq_getElem_of_lt _ _ hm, getD_eq_getElem_of_lt _ _ h,
    List.getElem_map]

theorem cstY_length (T : Transcend K) (coef xs : List K) (xn1 xn2 : K) :
    (cstY T coef xs xn1 xn2).length = xs.length := by
  simp [cstY]

theorem cstY_getD_zero (T : Transcend K) (coef xs : List K) (xn1 xn2 : K)
    (h : 0 < xs.length) :
    (cstY T coef xs xn1 xn2).getD 0 0 = 0 := by
  unfold cstY
  set y := xs.map (fun xp => T.pw xp xn1 * T.pw (1 - xp) xn2 * cst_shape coef xp)
    with hy
  have hylen : y.length = xs.length := by rw [hy, List.length_map]
  have h0 : 0 < ((y.set 0 0).set (y.length - 1) 0).length := by
    simpa [hylen] using h
  rw [getD_eq_getElem_of_lt _ _ h0]
  simp [List.getElem_set]

theorem cstY_getD_last (T : Transcend K) (coef xs : List K) (xn1 xn2 : K)
    (h : 0 < xs.length) :
    (cstY T coef xs xn1 xn2).getD (xs.length - 1) 0 = 0 := by
  unfold cstY
  set y := xs.map (fun xp => T.pw xp xn1 * T.pw (1 - xp) xn2 * cst_shape coef xp)
    with hy
  have hylen : y.length = xs.length := by rw [hy, List.length_map]
  have hlt : xs.length - 1 < ((y.set 0 0).set (y.length - 1) 0).length := by
    simp only [List.length_set, hylen]; omega
  rw [getD_eq_getElem_of_lt _ _ hlt]
  simp [List.getElem_set, hylen]

theorem tail_gap_last {yu yl xs : List ℝ} {tailv : ℝ} {i : ℕ}
    (hyu : i < yu.length) (hyl : i < yl.length) (hxs : i < xs.length)
    (hu0 : yu.getD i 0 = 0) (hl0 : yl.getD i 0 = 0) (hx1 : xs.getD i 0 = 1) :
    (List.zipWith (fun yv xv => yv + 1 / 2 * tailv * xv) yu xs).getD i 0
      - (List.zipWith (fun yv xv => yv - 1 / 2 * tailv * xv) yl xs).getD i 0
      = tailv := by
  rw [getD_zipWith _ yu xs i hyu hxs, getD_zipWith _ yl xs i hyl hxs,
    hu0, hl0, hx1]
  ring

theorem resolveX_length {K : Type*} [LinearOrderedField K]
    {T : Transcend K} {nn : ℕ} {x : Option (List K)} {xs : List K}
    (h : resolveX T nn x = some xs) : xs.length = nn := by
  cases x with
  | none =>
    simp only [resolveX, Option.some.injEq] at h
    rw [← h, List.length_map, List.length_range]
  | some l =>
    simp only [resolveX] at h
    by_cases hl : l.length = nn
    · rw [if_pos hl, Option.some.injEq] at h; rw [← h]; exact hl
    · rw [if_neg hl] at h; cases h

theorem foldl_max_map_mul {K : Type*} [LinearOrderedField K]
    (r : K) (hr : 0 ≤ r) :
    ∀ (l : List K) (a : K),
      List.foldl max (a * r) (l.map (fun v => v * r))
        = List.foldl max a l * r := by
  intro l
  induction l with
  | nil => intro a; rfl
  | cons b t ih =>
    intro a
    simp only [List.map_cons, List.foldl_cons]
    rw [← max_mul_of_nonneg a b hr]
    exact ih (max a b)

theorem npMax_map_mul {K : Type*} [LinearOrderedField K]
    (r : K) (hr : 0 ≤ r) (l : List K) :
    npMax (l.map (fun v => v * r)) = npMax l * r := by
  cases l with
  | nil => simp [npMax]
  | cons a t =>
    have h := foldl_max_map_mul r hr (a :: t) a
    simpa [npMax] using h

theorem zipWith_sub_map_mul {K : Type*} [LinearOrderedField K] (r : K) :
    ∀ l1 l2 : List K,
      List.zipWith (fun a b => a - b) (l1.map (fun v => v * r))
          (l2.map (fun v => v * r))
        = (List.zipWith (fun a b => a - b) l1 l2).map (fun v => v * r) := by
  intro l1
  induction l1 with
  | nil => intro l2; simp
  | cons a t ih =>
    intro l2
    cases l2 with
    | nil => simp
    | cons b u =>
      simp only [List.map_cons, List.zipWith_cons_cons, ih]
      congr 1
      ring

theorem zipWith_add_tail_zero {K : Type*} [LinearOrderedField K] :
    ∀ l1 l2 : List K, l1.length ≤ l2.length →
      List.zipWith (fun yv xv => yv + 1 / 2 * 0 * xv) l1 l2 = l1 := by
  intro l1
  induction l1 with
  | nil => intro l2 _; simp
  | cons a t ih =>
    intro l2 hl
    cases l2 with
    | nil => simp at hl
    | cons b u =>
      simp only [List.zipWith_cons_cons]
      rw [ih u (by simpa using hl)]
      congr 1
      ring

theorem zipWith_sub_tail_zero {K : Type*} [LinearOrderedField K] :
    ∀ l1 l2 : List K, l1.length ≤ l2.length →
      List.zipWith (fun yv xv => yv - 1 / 2 * 0 * xv) l1 l2 = l1 := by
  intro l1
  induction l1 with
  | nil => intro l2 _; simp
  | cons a t ih =>
    intro l2 hl
    cases l2 with
    | nil => simp at hl
    | cons b u =>
      simp only [List.zipWith_cons_cons]
      rw [ih u (by simpa using hl)]
      congr 1
      ring

end ListLemmas

section Claims

/-- C10: in `foil_increment`, both incremental curves are guarded on
`coef_upp is not None`; with `coef_upp = None`, a supplied `coef_low` is
silently ignored — the result coincides with passing no lower
coefficients at all (the lower increment is the zero curve). -/
theorem foil_increment_ignores_coef_low (x yu yl : List ℝ)
    (coef_low : List ℝ) (t : Option ℝ) :
    foil_increment realT x yu yl none (some coef_low) t
      = foil_increment realT x yu yl none none t := rfl

/-- C8: `add_bump` with a bump centre outside the open interval `(0,1)`
returns the input curve unchanged (non-fatal; the code only prints a
report), for both bump kinds. -/
theorem add_bump_invalid_center (x y : List ℝ) (xc h s : ℝ)
    (kind : BumpKind) (hxc : xc ≤ 0 ∨ 1 ≤ xc) :
    add_bump realT x y xc h s kind = y := by
  unfold add_bump
  rw [if_pos hxc]

/-- Witness for C8 at a concrete invalid centre `xc = 2`. -/
theorem add_bump_invalid_center_witness :
    ((2 : ℝ) ≤ 0 ∨ (1 : ℝ) ≤ 2) ∧
      add_bump realT [0, (1 : ℝ)] [3, (4 : ℝ)] 2 1 (1 / 2) BumpKind.G
        = [3, (4 : ℝ)] :=
  ⟨by norm_num,
    add_bump_invalid_center [0, 1] [3, 4] 2 1 (1 / 2) BumpKind.G (by norm_num)⟩

/-- C6: for every `n >= 2` and coefficient vector of length at least 1
(and any class exponents), the `y` array returned by `cst_curve`
satisfies `y[0] == 0` and `y[-1] == 0` exactly: the endpoint values are
forced to zero. -/
theorem cst_curve_forced_endpoints (nn : ℕ) (coef : List ℝ)
    (x : Option (List ℝ)) (xs : List ℝ) (xn1 xn2 : ℝ)
    (hnn : 2 ≤ nn) (hcoef : 1 ≤ coef.length)
    (hx : resolveX realT nn x = some xs) :
    ∃ y : List ℝ, cst_curve realT nn coef x xn1 xn2 = some (xs, y) ∧
      y.getD 0 0 = 0 ∧ y.getD (nn - 1) 0 = 0 := by
  have hlen : xs.length = nn := resolveX_length hx
  have hpos : 0 < xs.length := by omega
  refine ⟨cstY realT coef xs xn1 xn2, ?_, ?_, ?_⟩
  · simp [cst_curve, hx]
  · exact cstY_getD_zero realT coef xs xn1 xn2 hpos
  · have := cstY_getD_last realT coef xs xn1 xn2 hpos
    rwa [hlen] at this

/-- Witness for C6 at `nn = 2`, `coef = [1]`, `x = [0, 1]`. -/
theorem cst_curve_forced_endpoints_witness :
    (2 ≤ 2 ∧ 1 ≤ ([(1 : ℝ)]).length) ∧
      ∃ y : List ℝ,
        cst_curve realT 2 [(1 : ℝ)] (some [0, 1]) (1 / 2) 1 = some ([0, 1], y) ∧
          y.getD 0 0 = 0 ∧ y.getD (2 - 1) 0 = 0 :=
  ⟨⟨le_refl 2, by simp⟩,
    cst_curve_forced_endpoints 2 [1] (some [0, 1]) [0, 1] (1 / 2) 1
      (le_refl 2) (by simp) (by simp [resolveX])⟩

/-- C5: `cst_foil` with tail parameter `T > 0` and an `x`-sample whose
last element is 1 returns `yu`, `yl` with `yu[-1] - yl[-1] = T` exactly:
the linear term `0.5*tail*x[i]` added to `yu` and subtracted from `yl`
fully determines the trailing-edge gap. -/
theorem cst_foil_tail_gap (nn : ℕ) (cu cl : List ℝ) (x : Option (List ℝ))
    (xs : List ℝ) (t : Option ℝ) (tailv : ℝ) (hnn : 2 ≤ nn)
    (hx : resolveX realT nn x = some xs) (hlast : xs.getD (nn - 1) 0 = 1)
    (htail : 0 < tailv) :
    ∃ yu yl t0, cst_foil realT nn cu cl x t tailv = some (xs, yu, yl, t0) ∧
      yu.getD (nn - 1) 0 - yl.getD (nn - 1) 0 = tailv := by
  have hlen : xs.length = nn := resolveX_length hx
  have hpos : 0 < xs.length := by omega
  have hidx : nn - 1 < nn := by omega
  simp only [cst_foil, hx, Option.map_some']
  cases t with
  | none =>
    refine ⟨_, _, _, rfl, ?_⟩
    apply tail_gap_last
    · rw [cstY_length, hlen]; exact hidx
    · rw [cstY_length, hlen]; exact hidx
    · rw [hlen]; exact hidx
    · have := cstY_getD_last realT cu xs (1 / 2) 1 hpos; rwa [hlen] at this
    · have := cstY_getD_last realT cl xs (1 / 2) 1 hpos; rwa [hlen] at this
    · exact hlast
  | some tv =>
    refine ⟨_, _, _, rfl, ?_⟩
    apply tail_gap_last
    · rw [List.length_map, cstY_length, hlen]; exact hidx
    · rw [List.length_map, cstY_length, hlen]; exact hidx
    · rw [hlen]; exact hidx
    · rw [getD_map _ _ _ (by rw [cstY_length, hlen]; exact hidx)]
      have := cstY_getD_last realT cu xs (1 / 2) 1 hpos
      rw [hlen] at this; rw [this, zero_mul]
    · rw [getD_map _ _ _ (by rw [cstY_length, hlen]; exact hidx)]
      have := cstY_getD_last realT cl xs (1 / 2) 1 hpos
      rw [hlen] at this; rw [this, zero_mul]
    · exact hlast

/-- Witness for C5 at `nn = 2`, `x = [0, 1]`, `tail = 1/10`. -/
theorem cst_foil_tail_gap_witness :
    (([0, (1 : ℝ)] : List ℝ).getD (2 - 1) 0 = 1 ∧ (0 : ℝ) < 1 / 10) ∧
      ∃ yu yl t0,
        cst_foil realT 2 [(1 : ℝ)] [(1 : ℝ)] (some [0, 1]) none (1 / 10)
          = some ([0, 1], yu, yl, t0) ∧
        yu.getD (2 - 1) 0 - yl.getD (2 - 1) 0 = 1 / 10 :=
  ⟨⟨by norm_num, by norm_num⟩,
    cst_foil_tail_gap 2 [1] [1] (some [0, 1]) [0, 1] none (1 / 10)
      (le_refl 2) (by simp [resolveX]) (by norm_num) (by norm_num)⟩

/-- C9: `check_valid` sets flag 0 to 1 exactly when the minimum of the
thickness profile `yu - yl` is strictly below the tolerance `neg_tcri`
(rule 1); in particular, with the default tolerance 0, an airfoil with
`yl > yu` somewhere gets flag 1 and a nowhere-negative-thickness airfoil
gets flag 0. -/
theorem check_valid_negative_thickness (x yu yl : List ℝ) (RLE ncri : ℝ)
    (hn : 3 ≤ x.length) :
    ∃ flags, check_valid realT x yu yl RLE ncri = some flags ∧
      (flags.getD 0 0 = 1 ↔
        npMin (List.zipWith (fun a b => a - b) yu yl) < ncri) := by
  have h3 : ¬ (x.length < 3) := by omega
  have hsome : ∃ flags, check_valid realT x yu yl RLE ncri = some flags := by
    simp only [check_valid, foil_tcc, curve_curvature, if_neg h3,
      Option.map_some']
    exact ⟨_, rfl⟩
  obtain ⟨flags, hflags⟩ := hsome
  refine ⟨flags, hflags, ?_⟩
  have hval := hflags
  simp only [check_valid, foil_tcc, curve_curvature, if_neg h3,
    Option.map_some', Option.some.injEq] at hval
  rw [← hval]
  by_cases hmin : npMin (List.zipWith (fun a b => a - b) yu yl) < ncri
  · simp [hmin]
  · simp [hmin]

/-- Witness for C9 on a 3-point airfoil with `yl > yu` at the middle
point. -/
theorem check_valid_negative_thickness_witness :
    3 ≤ ([0, 1 / 2, 1] : List ℝ).length ∧
      ∃ flags,
        check_valid realT [0, 1 / 2, 1] [0, -(1 / 10), 0] [0, 1 / 10, 0] 0 0
          = some flags ∧
        (flags.getD 0 0 = 1 ↔
          npMin (List.zipWith (fun a b => a - b)
            [0, -(1 / 10), 0] [0, 1 / 10, 0]) < (0 : ℝ)) :=
  ⟨by norm_num,
    check_valid_negative_thickness [0, 1 / 2, 1] [0, -(1 / 10), 0]
      [0, 1 / 10, 0] 0 0 (by norm_num)⟩

/-- C7: for every `n >= 2`, `0 < a0 < a1 < 1` and `beta > 0`, the
sequence `clustcos(i, n, a0, a1, beta)`, `i = 0 .. n-1`, is strictly
increasing, its first element is exactly 0 and its last element is
exactly 1. -/
theorem clustcos_distribution (n : ℕ) (a0 a1 beta : ℝ)
    (hn : 2 ≤ n) (h0 : 0 < a0) (h01 : a0 < a1) (h1 : a1 < 1)
    (hb : 0 < beta) :
    clustcos realT 0 n a0 a1 beta = 0 ∧
    clustcos realT (n - 1) n a0 a1 beta = 1 ∧
    ∀ i j : ℕ, i < j → j ≤ n - 1 →
      clustcos realT i n a0 a1 beta < clustcos realT j n a0 a1 beta := by
  have hpi : (0 : ℝ) < Real.pi := Real.pi_pos
  have hnd : (0 : ℝ) < (n : ℝ) - 1 := by
    have h2 : (2 : ℝ) ≤ (n : ℝ) := by exact_mod_cast hn
    linarith
  have gmono : ∀ t1 t2 : ℝ, 0 ≤ t1 → t2 ≤ Real.pi → t1 < t2 →
      ((1 - Real.cos t1) / 2) ^ beta < ((1 - Real.cos t2) / 2) ^ beta := by
    intro t1 t2 ht1 ht2 ht
    have hc : Real.cos t2 < Real.cos t1 :=
      Real.cos_lt_cos_of_nonneg_of_le_pi ht1 ht2 ht
    have hb1 : (0 : ℝ) ≤ (1 - Real.cos t1) / 2 := by
      have := Real.cos_le_one t1; linarith
    exact Real.rpow_lt_rpow hb1 (by linarith) hb
  have hdd : (0 : ℝ) < ((1 - Real.cos (a1 * Real.pi)) / 2) ^ beta
      - ((1 - Real.cos (a0 * Real.pi)) / 2) ^ beta := by
    have := gmono (a0 * Real.pi) (a1 * Real.pi) (by positivity)
      (by nlinarith) (by nlinarith)
    linarith
  have hrange : ∀ t : ℝ, 0 ≤ t → t ≤ 1 →
      0 ≤ Real.pi * (a0 * (1 - t) + a1 * t)
        ∧ Real.pi * (a0 * (1 - t) + a1 * t) ≤ Real.pi := by
    intro t h0t ht1
    constructor
    · have : 0 ≤ a0 * (1 - t) + a1 * t := by nlinarith
      positivity
    · have : a0 * (1 - t) + a1 * t ≤ 1 := by nlinarith
      nlinarith
  refine ⟨?_, ?_, ?_⟩
  · have harg : Real.pi * (a0 * (1 - ((0 : ℕ) : ℝ) / ((n : ℝ) - 1))
        + a1 * (((0 : ℕ) : ℝ) / ((n : ℝ) - 1))) = a0 * Real.pi := by
      push_cast; ring
    simp only [clustcos, realT_pw, realT_cos, realT_pi]
    rw [harg, sub_self, zero_div]
  · have hyt : ((n - 1 : ℕ) : ℝ) / ((n : ℝ) - 1) = 1 := by
      rw [Nat.cast_sub (by omega)]
      push_cast
      exact div_self (ne_of_gt hnd)
    have harg : Real.pi * (a0 * (1 - ((n - 1 : ℕ) : ℝ) / ((n : ℝ) - 1))
        + a1 * (((n - 1 : ℕ) : ℝ) / ((n : ℝ) - 1))) = a1 * Real.pi := by
      rw [hyt]; ring
    simp only [clustcos, realT_pw, realT_cos, realT_pi]
    rw [harg]
    exact div_self (ne_of_gt hdd)
  · intro i j hij hjn
    have hcast : (i : ℝ) < (j : ℝ) := by exact_mod_cast hij
    have hyti : (i : ℝ) / ((n : ℝ) - 1) < (j : ℝ) / ((n : ℝ) - 1) := by
      gcongr
    have h0i : (0 : ℝ) ≤ (i : ℝ) / ((n : ℝ) - 1) := by positivity
    have h0j : (0 : ℝ) ≤ (j : ℝ) / ((n : ℝ) - 1) := by positivity
    have hj1 : (j : ℝ) / ((n : ℝ) - 1) ≤ 1 := by
      rw [div_le_one hnd]
      have hjc := (Nat.cast_le (α := ℝ)).mpr hjn
      rw [Nat.cast_sub (by omega)] at hjc
      push_cast at hjc
      linarith
    have hi1 : (i : ℝ) / ((n : ℝ) - 1) ≤ 1 := le_trans (le_of_lt hyti) hj1
    have hargs : Real.pi * (a0 * (1 - (i : ℝ) / ((n : ℝ) - 1))
          + a1 * ((i : ℝ) / ((n : ℝ) - 1)))
        < Real.pi * (a0 * (1 - (j : ℝ) / ((n : ℝ) - 1))
          + a1 * ((j : ℝ) / ((n : ℝ) - 1))) := by
      apply mul_lt_mul_of_pos_left _ hpi
      nlinarith
    have hg := gmono _ _ (hrange _ h0i hi1).1 (hrange _ h0j hj1).2 hargs
    simp only [clustcos, realT_pw, realT_cos, realT_pi]
    gcongr

/-- Witness for C7 at `n = 3`, `a0 = 1/4`, `a1 = 1/2`, `beta = 1`. -/
theorem clustcos_distribution_witness :
    ((2 ≤ 3) ∧ (0 : ℝ) < 1 / 4 ∧ (1 / 4 : ℝ) < 1 / 2 ∧ (1 / 2 : ℝ) < 1
        ∧ (0 : ℝ) < 1) ∧
      clustcos realT 0 3 (1 / 4) (1 / 2) 1 = 0 ∧
      clustcos realT (3 - 1) 3 (1 / 4) (1 / 2) 1 = 1 ∧
      ∀ i j : ℕ, i < j → j ≤ 3 - 1 →
        clustcos realT i 3 (1 / 4) (1 / 2) 1
          < clustcos realT j 3 (1 / 4) (1 / 2) 1 :=
  ⟨⟨by norm_num, by norm_num, by norm_num, by norm_num, by norm_num⟩,
    clustcos_distribution 3 (1 / 4) (1 / 2) 1 (by norm_num) (by norm_num)
      (by norm_num) (by norm_num) (by norm_num)⟩

/-- C1 (code bug): evaluation of `find_circle_3p` at the pairwise
distinct, non-collinear points `p1 = (0,0)`, `p2 = (1,0)`, `p3 = (0,2)`.
The code returns centre `(1/2, 4)` and radius `sqrt(65/4)` — because
`y0 = (x32*xy21 - x21*xy32) / 2 * (y21*x32 - y32*x21)` multiplies by the
determinant instead of dividing by twice the determinant — and the third
input point is NOT at distance `R` from the returned centre (its distance
is `sqrt(17/4)`): the returned circle does not pass through the three
points, contradicting the claim (the true centre is `(1/2, 1)`). -/
theorem find_circle_3p_bug_eval :
    find_circle_3p realT ((0 : ℝ), 0) (1, 0) (0, 2)
      = some (Real.sqrt (65 / 4), (1 / 2, 4)) ∧
    Real.sqrt (((0 : ℝ) - 1 / 2) ^ 2 + ((2 : ℝ) - 4) ^ 2)
      ≠ Real.sqrt (65 / 4) := by
  constructor
  · simp only [find_circle_3p, realT_sqrt]
    rw [if_neg (by norm_num)]
    norm_num
  · intro h
    rw [show ((0 : ℝ) - 1 / 2) ^ 2 + ((2 : ℝ) - 4) ^ 2 = 17 / 4 by norm_num]
      at h
    rw [Real.sqrt_inj (by norm_num) (by norm_num)] at h
    norm_num at h

theorem rpow_quarter_half : ((1 / 4 : ℝ)) ^ ((1 / 2 : ℝ)) = 1 / 2 := by
  rw [show (1 / 4 : ℝ) = (1 / 2 : ℝ) ^ (2 : ℕ) by norm_num,
    ← Real.rpow_natCast (1 / 2 : ℝ) 2, ← Real.rpow_mul (by norm_num)]
  norm_num

theorem cexfoil_cstY_u :
    cstY realT [(1 : ℝ)] [0, 1 / 4, 1] (1 / 2) 1 = [0, 3 / 8, 0] := by
  simp only [cstY, List.map_cons, List.map_nil, realT_pw]
  norm_num [cst_shape, xkin, rpow_quarter_half, Real.rpow_one, List.set]

theorem cexfoil_cstY_l :
    cstY realT [(-1 : ℝ)] [0, 1 / 4, 1] (1 / 2) 1 = [0, -(3 / 8), 0] := by
  simp only [cstY, List.map_cons, List.map_nil, realT_pw]
  norm_num [cst_shape, xkin, rpow_quarter_half, Real.rpow_one, List.set]

theorem cexfoil_npMax : npMax [(0 : ℝ), 3 / 4, 0] = 3 / 4 := by
  simp only [npMax, List.headD_cons, List.foldl_cons, List.foldl_nil]
  norm_num [max_def]

theorem cexfoil_argmax : npArgmax [(0 : ℝ), 3 / 4, 0] = 1 := by
  simp only [npArgmax, cexfoil_npMax, List.findIdx_cons]
  rw [decide_eq_false (by norm_num), decide_eq_true (by norm_num)]
  rfl

/-- Counterexample for C4: with a negative supplied target thickness
(`t = -1`), `cst_foil` (tail 0) returns an airfoil whose maximum
thickness is 0, not `t`: the scale ratio `r = t/t0` is negative, so the
maximum of the rescaled thickness profile is `r` times its former
minimum, not `r*t0`.  Input: `nn = 3`, `coef_upp = [1]`,
`coef_low = [-1]`, `x = [0, 1/4, 1]`, `t = -1`, `tail = 0`. -/
theorem cst_foil_target_thickness_cex :
    cst_foil realT 3 [(1 : ℝ)] [(-1 : ℝ)] (some [0, 1 / 4, 1])
        (some (-1)) 0
      = some ([0, 1 / 4, 1], [0, -(1 / 2), 0], [0, 1 / 2, 0], -1) ∧
    npMax (List.zipWith (fun a b => a - b)
      [(0 : ℝ), -(1 / 2), 0] [0, 1 / 2, 0]) = 0 ∧
    (0 : ℝ) ≠ -1 := by
  refine ⟨?_, ?_, by norm_num⟩
  · have hz : List.zipWith (fun a b => a - b) [(0 : ℝ), 3 / 8, 0]
        [0, -(3 / 8), 0] = [0, 3 / 4, 0] := by
      norm_num [List.zipWith]
    simp only [cst_foil, resolveX, List.length_cons, List.length_nil,
      Option.map_some']
    norm_num
    rw [cexfoil_cstY_u, cexfoil_cstY_l, hz, cexfoil_argmax]
    norm_num [List.zipWith, List.getD, cexfoil_npMax]
  · have hz2 : List.zipWith (fun a b => a - b) [(0 : ℝ), -(1 / 2), 0]
        [0, 1 / 2, 0] = [0, -1, 0] := by
      norm_num [List.zipWith]
    rw [hz2]
    simp only [npMax, List.headD_cons, List.foldl_cons, List.foldl_nil]
    norm_num [max_def]

/-- C4 as amended: for every `n >= 2`, coefficient vectors whose raw
thickness profile has a nonzero maximum `t0`, and supplied NONNEGATIVE
target thickness `t >= 0`, `cst_foil` with `tail = 0` returns `yu`, `yl`
whose maximum thickness equals `t`, and returns `t0 = t` (the scale
ratio applied to both surfaces is `r = (t - tail*x[it])/t0 = t/t0`).
The original claim, with `t` unrestricted, fails for negative `t`. -/
theorem cst_foil_target_thickness (nn : ℕ) (cu cl : List ℝ)
    (x : Option (List ℝ)) (xs : List ℝ) (tv : ℝ)
    (hnn : 2 ≤ nn) (hx : resolveX realT nn x = some xs)
    (ht0 : npMax (List.zipWith (fun a b => a - b)
      (cstY realT cu xs (1 / 2) 1) (cstY realT cl xs (1 / 2) 1)) ≠ 0)
    (htv : 0 ≤ tv) :
    ∃ yu yl, cst_foil realT nn cu cl x (some tv) 0 = some (xs, yu, yl, tv) ∧
      npMax (List.zipWith (fun a b => a - b) yu yl) = tv := by
  have hlen : xs.length = nn := resolveX_length hx
  have hulen : (cstY realT cu xs (1 / 2) 1).length = xs.length :=
    cstY_length realT cu xs (1 / 2) 1
  have hllen : (cstY realT cl xs (1 / 2) 1).length = xs.length :=
    cstY_length realT cl xs (1 / 2) 1
  set yu0 := cstY realT cu xs (1 / 2) 1 with hyu0
  set yl0 := cstY realT cl xs (1 / 2) 1 with hyl0
  set thick := List.zipWith (fun a b => a - b) yu0 yl0 with hthick
  have hthlen : thick.length = xs.length := by
    rw [hthick, List.length_zipWith, hulen, hllen, min_self]
  have hne : thick ≠ [] := by
    intro hcon
    rw [hcon] at hthlen
    simp at hthlen
    omega
  have hmem0 : (0 : ℝ) ∈ thick := by
    have h0lt : 0 < thick.length := by rw [hthlen]; omega
    have hg : thick.getD 0 0 = 0 := by
      rw [hthick, getD_zipWith _ _ _ 0 (by omega) (by omega)]
      rw [hyu0, hyl0, cstY_getD_zero realT cu xs (1 / 2) 1 (by omega),
        cstY_getD_zero realT cl xs (1 / 2) 1 (by omega)]
      ring
    rw [getD_eq_getElem_of_lt thick 0 h0lt] at hg
    rw [← hg]
    exact thick.getElem_mem h0lt
  have ht0nonneg : 0 ≤ npMax thick := le_npMax_of_mem hmem0
  have ht0pos : 0 < npMax thick := lt_of_le_of_ne ht0nonneg (Ne.symm ht0)
  have hr : 0 ≤ (tv - 0 * xs.getD (npArgmax thick) 0) / thick.getD (npArgmax thick) 0 := by
    rw [npArgmax_getD thick hne,
      show tv - 0 * xs.getD (npArgmax thick) 0 = tv by ring]
    exact div_nonneg htv (le_of_lt ht0pos)
  simp only [cst_foil, hx, Option.map_some']
  refine ⟨_, _, rfl, ?_⟩
  rw [zipWith_add_tail_zero _ _ (by rw [List.length_map, hulen]),
    zipWith_sub_tail_zero _ _ (by rw [List.length_map, hllen]),
    zipWith_sub_map_mul, ← hthick, npMax_map_mul _ hr thick,
    npArgmax_getD thick hne]
  field_simp

/-- Witness for the amended C4 at `nn = 3`, `x = [0, 1/4, 1]`,
`t = 1/2`. -/
theorem cst_foil_target_thickness_witness :
    ((0 : ℝ) ≤ 1 / 2 ∧
      npMax (List.zipWith (fun a b => a - b)
        (cstY realT [(1 : ℝ)] [0, 1 / 4, 1] (1 / 2) 1)
        (cstY realT [(-1 : ℝ)] [0, 1 / 4, 1] (1 / 2) 1)) ≠ 0) ∧
    ∃ yu yl,
      cst_foil realT 3 [(1 : ℝ)] [(-1 : ℝ)] (some [0, 1 / 4, 1])
          (some (1 / 2)) 0
        = some ([0, 1 / 4, 1], yu, yl, 1 / 2) ∧
      npMax (List.zipWith (fun a b => a - b) yu yl) = 1 / 2 := by
  have hz : npMax (List.zipWith (fun a b => a - b)
      (cstY realT [(1 : ℝ)] [0, 1 / 4, 1] (1 / 2) 1)
      (cstY realT [(-1 : ℝ)] [0, 1 / 4, 1] (1 / 2) 1)) ≠ 0 := by
    rw [cexfoil_cstY_u, cexfoil_cstY_l,
      show List.zipWith (fun a b => a - b) [(0 : ℝ), 3 / 8, 0]
        [0, -(3 / 8), 0] = [0, 3 / 4, 0] by norm_num [List.zipWith],
      cexfoil_npMax]
    norm_num
  exact ⟨⟨by norm_num, hz⟩,
    cst_foil_target_thickness 3 [1] [-1] (some [0, 1 / 4, 1]) [0, 1 / 4, 1]
      (1 / 2) (by norm_num) (by simp [resolveX]) hz (by norm_num)⟩

theorem cstY_getD_interior {K : Type*} [LinearOrderedField K]
    (T : Transcend K) (coef xs : List K) (xn1 xn2 : K) (ip : ℕ)
    (hip : ip < xs.length) (h0 : ip ≠ 0) (hl : ip ≠ xs.length - 1) :
    (cstY T coef xs xn1 xn2).getD ip 0
      = T.pw (xs.getD ip 0) xn1 * T.pw (1 - xs.getD ip 0) xn2
        * cst_shape coef (xs.getD ip 0) := by
  have hmlen : (xs.map (fun xp =>
      T.pw xp xn1 * T.pw (1 - xp) xn2 * cst_shape coef xp)).length
      = xs.length := by rw [List.length_map]
  have hlt : ip < (((xs.map (fun xp =>
      T.pw xp xn1 * T.pw (1 - xp) xn2 * cst_shape coef xp)).set 0 0).set
        ((xs.map (fun xp =>
          T.pw xp xn1 * T.pw (1 - xp) xn2 * cst_shape coef xp)).length - 1)
        0).length := by
    simp only [List.length_set, hmlen]
    exact hip
  simp only [cstY]
  rw [getD_eq_getElem_of_lt _ _ hlt,
    List.getElem_set_ne (by rw [hmlen]; omega),
    List.getElem_set_ne (by omega),
    List.getElem_map]
  rw [← getD_eq_getElem_of_lt xs ip hip]

theorem fitA_row_sum (x coefv : List ℝ) (ip : ℕ)
    (hx0 : x.getD 0 0 = 0) (hxl : x.getD (x.length - 1) 0 = 1)
    (hip : ip < x.length) :
    ∑ i in Finset.range coefv.length,
      fitA realT x coefv.length (1 / 2) 1 ip i * coefv.getD i 0
      = (cstY realT coefv x (1 / 2) 1).getD ip 0 := by
  have hpos : 0 < x.length := by omega
  have hx_ : (x.getD ip 0 - x.getD 0 0)
      / (x.getD (x.length - 1) 0 - x.getD 0 0) = x.getD ip 0 := by
    rw [hx0, hxl]; simp
  by_cases h0 : ip = 0
  · subst h0
    rw [cstY_getD_zero realT coefv x (1 / 2) 1 hpos]
    apply Finset.sum_eq_zero
    intro i _
    simp only [fitA, realT_pw, hx0, hxl]
    rw [show ((0 : ℝ) - 0) / (1 - 0) = 0 by norm_num]
    rw [Real.zero_rpow (by norm_num)]
    ring
  · by_cases hl : ip = x.length - 1
    · subst hl
      rw [cstY_getD_last realT coefv x (1 / 2) 1 hpos]
      apply Finset.sum_eq_zero
      intro i _
      simp only [fitA, realT_pw, hx0, hxl]
      rw [show ((1 : ℝ) - 0) / (1 - 0) = 1 by norm_num]
      rw [show ((1 : ℝ) - 1) = 0 by norm_num,
        Real.zero_rpow (by norm_num : (1 : ℝ) ≠ 0)]
      ring
    · rw [cstY_getD_interior realT coefv x (1 / 2) 1 ip hip h0 hl]
      simp only [fitA, realT_pw, hx_]
      rw [cst_shape, Finset.mul_sum]
      apply Finset.sum_congr rfl
      intro i _
      ring

theorem fitB_generating (x coefv : List ℝ) (ip : ℕ)
    (hpos : 0 < x.length) :
    fitB x (cstY realT coefv x (1 / 2) 1) ip
      = (cstY realT coefv x (1 / 2) 1).getD ip 0 := by
  simp only [fitB]
  rw [cstY_length, cstY_getD_last realT coefv x (1 / 2) 1 hpos]
  ring

theorem resid_generating (x coefv : List ℝ)
    (hx0 : x.getD 0 0 = 0) (hxl : x.getD (x.length - 1) 0 = 1) :
    lstsqResid realT x (cstY realT coefv x (1 / 2) 1) coefv.length
      (1 / 2) 1 coefv = 0 := by
  apply Finset.sum_eq_zero
  intro ip hip
  rw [Finset.mem_range] at hip
  rw [fitA_row_sum x coefv ip hx0 hxl hip,
    fitB_generating x coefv ip (by omega)]
  ring

theorem resid_nonneg (x y : List ℝ) (n_order : ℕ) (xn1 xn2 : ℝ)
    (c : List ℝ) : 0 ≤ lstsqResid realT x y n_order xn1 xn2 c :=
  Finset.sum_nonneg (fun _ _ => sq_nonneg _)

/-- C3: round-trip.  For a curve generated by `cst_curve` on a 201-point
sample (first abscissa 0, last 1) from any 7-coefficient vector with
entries in `[-0.3, 0.3]`, any least-squares solution returned by
`fit_curve` with `n_order = 7` rebuilds, through `cst_curve`, the
original curve to within the claimed tolerance (`max abs error < 1e-4`;
in exact arithmetic the reconstruction is exact, since the generated
curve solves the system with zero residual and any minimiser must also
attain zero residual). -/
theorem fit_curve_roundtrip (x coef c : List ℝ)
    (hlen : x.length = 201) (hx0 : x.getD 0 0 = 0)
    (hxl : x.getD (x.length - 1) 0 = 1)
    (hclen : coef.length = 7) (hsmooth : ∀ v ∈ coef, |v| ≤ 3 / 10)
    (hfit : IsLstsqSol realT x (cstY realT coef x (1 / 2) 1) 7 (1 / 2) 1 c) :
    ∀ i < 201,
      |(cstY realT c x (1 / 2) 1).getD i 0
        - (cstY realT coef x (1 / 2) 1).getD i 0| < 1 / 10000 := by
  obtain ⟨hclen2, hmin⟩ := hfit
  have hgen : lstsqResid realT x (cstY realT coef x (1 / 2) 1) 7
      (1 / 2) 1 coef = 0 := by
    have := resid_generating x coef hx0 hxl
    rwa [hclen] at this
  have hle := hmin coef
  rw [hgen] at hle
  have hzero : lstsqResid realT x (cstY realT coef x (1 / 2) 1) 7
      (1 / 2) 1 c = 0 :=
    le_antisymm hle (resid_nonneg x _ 7 (1 / 2) 1 c)
  have hrows := (Finset.sum_eq_zero_iff_of_nonneg
    (fun (i : ℕ) _ => sq_nonneg _)).mp hzero
  intro i hi
  have hix : i < x.length := by omega
  have hrow := hrows i (Finset.mem_range.mpr hix)
  rw [sq_eq_zero_iff, sub_eq_zero] at hrow
  have hsum : ∑ j in Finset.range 7,
      fitA realT x 7 (1 / 2) 1 i j * c.getD j 0
      = (cstY realT coef x (1 / 2) 1).getD i 0 := by
    rw [hrow, fitB_generating x coef i (by omega)]
  have hrebuild : (cstY realT c x (1 / 2) 1).getD i 0
      = ∑ j in Finset.range 7, fitA realT x 7 (1 / 2) 1 i j * c.getD j 0 := by
    have := fitA_row_sum x c i hx0 hxl hix
    rw [hclen2] at this
    rw [← this]
  rw [hrebuild, hsum]
  norm_num

/-- Witness for C3 on the uniform 201-point sample with all seven
coefficients equal to `0.1`; the generating coefficients themselves are
a least-squares solution (zero residual). -/
theorem fit_curve_roundtrip_witness :
    (((List.range 201).map (fun i : ℕ => (i : ℝ) / 200)).length = 201 ∧
      IsLstsqSol realT ((List.range 201).map (fun i : ℕ => (i : ℝ) / 200))
        (cstY realT (List.replicate 7 (1 / 10))
          ((List.range 201).map (fun i : ℕ => (i : ℝ) / 200)) (1 / 2) 1)
        7 (1 / 2) 1 (List.replicate 7 (1 / 10))) ∧
    ∀ i < 201,
      |(cstY realT (List.replicate 7 (1 / 10))
          ((List.range 201).map (fun i : ℕ => (i : ℝ) / 200)) (1 / 2) 1).getD i 0
        - (cstY realT (List.replicate 7 (1 / 10))
          ((List.range 201).map (fun i : ℕ => (i : ℝ) / 200)) (1 / 2) 1).getD i 0|
        < 1 / 10000 := by
  have hlen : ((List.range 201).map (fun i : ℕ => (i : ℝ) / 200)).length = 201 := by
    simp
  have hx0 : ((List.range 201).map (fun i : ℕ => (i : ℝ) / 200)).getD 0 0 = 0 := by
    simp [List.getD_eq_getElem?_getD]
  have hxl : ((List.range 201).map (fun i : ℕ => (i : ℝ) / 200)).getD
      (((List.range 201).map (fun i : ℕ => (i : ℝ) / 200)).length - 1) 0 = 1 := by
    rw [hlen]
    simp [List.getD_eq_getElem?_getD]
  have hfit : IsLstsqSol realT ((List.range 201).map (fun i : ℕ => (i : ℝ) / 200))
      (cstY realT (List.replicate 7 (1 / 10))
        ((List.range 201).map (fun i : ℕ => (i : ℝ) / 200)) (1 / 2) 1)
      7 (1 / 2) 1 (List.replicate 7 (1 / 10)) := by
    constructor
    · simp
    · intro c'
      have hgen := resid_generating ((List.range 201).map (fun i : ℕ => (i : ℝ) / 200))
        (List.replicate 7 (1 / 10)) hx0 hxl
      rw [List.length_replicate] at hgen
      rw [hgen]
      exact resid_nonneg _ _ 7 (1 / 2) 1 c'
  exact ⟨⟨hlen, hfit⟩,
    fit_curve_roundtrip _ _ _ hlen hx0 hxl (by simp)
      (fun v hv => by
        rw [List.eq_of_mem_replicate hv, abs_le]
        constructor <;> norm_num)
      hfit⟩

theorem npArgmax_singleton {K : Type*} [LinearOrder K] [Zero K] (a : K) :
    npArgmax [a] = 0 := by
  have h : npMax [a] = a := by simp [npMax]
  simp [npArgmax, h, List.findIdx_cons]

/-- C2 as amended: `foil_bump_modify` (with `n_order = 0`) preserves the
thickness at the index `it` of maximum post-bump thickness: the rescale
of the opposite side makes `(yu_new - yl_new)[it]` equal the original
maximum thickness `t0` exactly, provided the two surfaces have the
standard signs at `it` (bumped-upper value nonnegative and opposite
lower value negative for `side > 0`, symmetrically otherwise).  The
GLOBAL maximum of the new thickness profile can differ from `t0` (see
the counterexample), so the original claim holds only at `it`. -/
theorem foil_bump_modify_thickness_at_it (x yu yl : List ℝ)
    (xc h s : ℝ) (side : ℤ)
    (hulen : fbmIt realT x yu yl xc h s side
      < (fbmBumpedU realT x yu yl xc h s side).length)
    (hllen : fbmIt realT x yu yl xc h s side
      < (fbmBumpedL realT x yu yl xc h s side).length)
    (hsides : 0 < side →
      0 ≤ (fbmBumpedU realT x yu yl xc h s side).getD
          (fbmIt realT x yu yl xc h s side) 0 ∧
      (fbmBumpedL realT x yu yl xc h s side).getD
          (fbmIt realT x yu yl xc h s side) 0 < 0)
    (hsiden : ¬ 0 < side →
      0 < (fbmBumpedU realT x yu yl xc h s side).getD
          (fbmIt realT x yu yl xc h s side) 0 ∧
      (fbmBumpedL realT x yu yl xc h s side).getD
          (fbmIt realT x yu yl xc h s side) 0 ≤ 0) :
    (List.zipWith (fun a b => a - b)
        (foil_bump_modify realT x yu yl xc h s side).1
        (foil_bump_modify realT x yu yl xc h s side).2).getD
        (fbmIt realT x yu yl xc h s side) 0
      = npMax (List.zipWith (fun a b => a - b) yu yl) := by
  set u := (fbmBumpedU realT x yu yl xc h s side).getD
    (fbmIt realT x yu yl xc h s side) 0 with hu
  set l := (fbmBumpedL realT x yu yl xc h s side).getD
    (fbmIt realT x yu yl xc h s side) 0 with hl
  set t0 := npMax (List.zipWith (fun a b => a - b) yu yl) with ht0
  by_cases hs : side > 0
  · obtain ⟨hu0, hl0⟩ := hsides hs
    simp only [foil_bump_modify, if_pos hs]
    rw [getD_zipWith _ _ _ _ hulen (by rw [List.length_map]; exact hllen),
      getD_map _ _ _ hllen, ← hu, ← hl, ← ht0]
    rw [abs_of_nonneg hu0, abs_of_neg hl0]
    have hlne : l ≠ 0 := ne_of_lt hl0
    have key : (t0 - u) / -l * l = -(t0 - u) := by
      rw [div_neg, neg_mul, div_mul_eq_mul_div, mul_div_assoc,
        div_self hlne, mul_one]
    rw [key]
    ring
  · obtain ⟨hu0, hl0⟩ := hsiden hs
    simp only [foil_bump_modify, if_neg hs]
    rw [getD_zipWith _ _ _ _ (by rw [List.length_map]; exact hulen) hllen,
      getD_map _ _ _ hulen, ← hu, ← hl, ← ht0]
    rw [abs_of_pos hu0, abs_of_nonpos hl0]
    have hune : u ≠ 0 := ne_of_gt hu0
    have key : (t0 - -l) / u * u = t0 + l := by
      rw [div_mul_eq_mul_div, mul_div_assoc, div_self hune, mul_one]
      ring
    rw [key]
    ring

theorem witbump_t0 :
    npMax (List.zipWith (fun a b => a - b) [(1 / 5 : ℝ)] [-(1 / 5)])
      = 2 / 5 := by
  norm_num [List.zipWith, npMax]

theorem witbump_U :
    fbmBumpedU realT [(1 / 2 : ℝ)] [1 / 5] [-(1 / 5)] (1 / 2) (1 / 10)
      (1 / 4) 1 = [6 / 25] := by
  simp only [fbmBumpedU, if_pos (by norm_num : (0 : ℤ) < 1), witbump_t0]
  rw [show fbmKind ((1 : ℝ) / 2) = BumpKind.G by
    simp only [fbmKind]
    rw [if_neg (by norm_num)]]
  simp only [add_bump]
  rw [if_neg (by norm_num)]
  simp only [addBumpG]
  rw [if_neg (by norm_num)]
  rw [if_neg (by norm_num)]
  rw [show -(((1 : ℝ) / 2 - 1 / 2) ^ 2) / 2 / ((1 / 4) / 6) ^ 2 = 0 by
    norm_num]
  rw [realT_exp, Real.exp_zero]
  norm_num

theorem witbump_L :
    fbmBumpedL realT [(1 / 2 : ℝ)] [1 / 5] [-(1 / 5)] (1 / 2) (1 / 10)
      (1 / 4) 1 = [-(1 / 5)] := by
  simp only [fbmBumpedL, if_pos (by norm_num : (0 : ℤ) < 1)]

theorem witbump_it :
    fbmIt realT [(1 / 2 : ℝ)] [1 / 5] [-(1 / 5)] (1 / 2) (1 / 10)
      (1 / 4) 1 = 0 := by
  simp only [fbmIt, witbump_U, witbump_L]
  rw [show List.zipWith (fun a b => a - b) [(6 / 25 : ℝ)] [-(1 / 5)]
    = [11 / 25] by norm_num [List.zipWith]]
  exact npArgmax_singleton _

/-- Witness for the amended C2 on a one-point curve, where the Gaussian
bump evaluates rationally (`exp 0 = 1`). -/
theorem foil_bump_modify_thickness_at_it_witness :
    (fbmIt realT [(1 / 2 : ℝ)] [1 / 5] [-(1 / 5)] (1 / 2) (1 / 10) (1 / 4) 1
        < (fbmBumpedU realT [(1 / 2 : ℝ)] [1 / 5] [-(1 / 5)] (1 / 2)
          (1 / 10) (1 / 4) 1).length ∧
      0 ≤ (fbmBumpedU realT [(1 / 2 : ℝ)] [1 / 5] [-(1 / 5)] (1 / 2)
          (1 / 10) (1 / 4) 1).getD
          (fbmIt realT [(1 / 2 : ℝ)] [1 / 5] [-(1 / 5)] (1 / 2) (1 / 10)
            (1 / 4) 1) 0) ∧
    (List.zipWith (fun a b => a - b)
        (foil_bump_modify realT [(1 / 2 : ℝ)] [1 / 5] [-(1 / 5)] (1 / 2)
          (1 / 10) (1 / 4) 1).1
        (foil_bump_modify realT [(1 / 2 : ℝ)] [1 / 5] [-(1 / 5)] (1 / 2)
          (1 / 10) (1 / 4) 1).2).getD
        (fbmIt realT [(1 / 2 : ℝ)] [1 / 5] [-(1 / 5)] (1 / 2) (1 / 10)
          (1 / 4) 1) 0
      = npMax (List.zipWith (fun a b => a - b) [(1 / 5 : ℝ)] [-(1 / 5)]) := by
  constructor
  · constructor
    · rw [witbump_it, witbump_U]
      norm_num
    · rw [witbump_it, witbump_U]
      norm_num
  · exact foil_bump_modify_thickness_at_it [(1 / 2 : ℝ)] [1 / 5] [-(1 / 5)]
      (1 / 2) (1 / 10) (1 / 4) 1
      (by rw [witbump_it, witbump_U]; norm_num)
      (by rw [witbump_it, witbump_L]; norm_num)
      (fun _ => by
        rw [witbump_it, witbump_U, witbump_L]
        norm_num)
      (fun hcon => absurd (by norm_num : (0 : ℤ) < 1) hcon)

theorem cexbump_E2_gt : (1 / 3 : ℝ) < Real.exp (-(49 / 200)) := by
  nlinarith [Real.add_one_le_exp (-(49 / 200 : ℝ))]

theorem cexbump_E2_lt : Real.exp (-(49 / 200 : ℝ)) < 1 := by
  rw [← Real.exp_zero]
  exact Real.exp_lt_exp.mpr (by norm_num)

theorem cexbump_E8_lt : Real.exp (-(49 / 8 : ℝ)) < 1 := by
  rw [← Real.exp_zero]
  exact Real.exp_lt_exp.mpr (by norm_num)

theorem cexbump_t0 :
    npMax (List.zipWith (fun a b => a - b)
      [(0 : ℝ), 56 / 100, 3 / 10, 0] [0, 0, -(3 / 10), 0]) = 3 / 5 := by
  norm_num [List.zipWith, npMax, max_def]

theorem cexbump_U :
    fbmBumpedU realT [0, 1 / 2, 3 / 5, 1] [0, 56 / 100, 3 / 10, 0]
      [0, 0, -(3 / 10), 0] (1 / 2) (1 / 10) (9 / 10) 1
      = [3 / 50 * Real.exp (-(49 / 8)), 31 / 50,
         3 / 10 + 3 / 50 * Real.exp (-(49 / 200)),
         3 / 50 * Real.exp (-(49 / 8))] := by
  simp only [fbmBumpedU, if_pos (show (0 : ℤ) < 1 by norm_num), cexbump_t0]
  rw [show fbmKind ((1 : ℝ) / 2) = BumpKind.G by
    simp only [fbmKind]
    rw [if_neg (by norm_num)]]
  simp only [add_bump]
  rw [if_neg (by norm_num)]
  simp only [addBumpG, realT_exp]
  norm_num

theorem cexbump_L :
    fbmBumpedL realT [0, 1 / 2, 3 / 5, 1] [0, 56 / 100, 3 / 10, 0]
      [0, 0, -(3 / 10), 0] (1 / 2) (1 / 10) (9 / 10) 1
      = [0, 0, -(3 / 10), 0] := by
  simp only [fbmBumpedL, if_pos (show (0 : ℤ) < 1 by norm_num)]

theorem cexbump_Tnew :
    List.zipWith (fun a b => a - b)
      [3 / 50 * Real.exp (-(49 / 8)), 31 / 50,
        3 / 10 + 3 / 50 * Real.exp (-(49 / 200)),
        3 / 50 * Real.exp (-(49 / 8))]
      [(0 : ℝ), 0, -(3 / 10), 0]
      = [3 / 50 * Real.exp (-(49 / 8)), 31 / 50,
         3 / 5 + 3 / 50 * Real.exp (-(49 / 200)),
         3 / 50 * Real.exp (-(49 / 8))] := by
  simp only [List.zipWith_cons_cons, List.zipWith_nil_right,
    List.cons.injEq, and_true]
  refine ⟨by ring, by ring, by ring, by ring⟩

theorem cexbump_max :
    npMax [3 / 50 * Real.exp (-(49 / 8)), 31 / 50,
      3 / 5 + 3 / 50 * Real.exp (-(49 / 200)),
      3 / 50 * Real.exp (-(49 / 8))]
      = 3 / 5 + 3 / 50 * Real.exp (-(49 / 200)) := by
  have hE8p : (0 : ℝ) < Real.exp (-(49 / 8)) := Real.exp_pos _
  have hE2p : (0 : ℝ) < Real.exp (-(49 / 200)) := Real.exp_pos _
  have h1 : 3 / 50 * Real.exp (-(49 / 8 : ℝ)) ≤ 31 / 50 := by
    nlinarith [cexbump_E8_lt]
  have h2 : (31 / 50 : ℝ) ≤ 3 / 5 + 3 / 50 * Real.exp (-(49 / 200)) := by
    nlinarith [cexbump_E2_gt]
  have h3 : 3 / 50 * Real.exp (-(49 / 8 : ℝ))
      ≤ 3 / 5 + 3 / 50 * Real.exp (-(49 / 200)) := by
    nlinarith [cexbump_E8_lt, hE2p]
  simp only [npMax, List.headD_cons, List.foldl_cons, List.foldl_nil]
  rw [max_self, max_eq_right h1, max_eq_right h2, max_eq_left h3]

theorem cexbump_it :
    fbmIt realT [0, 1 / 2, 3 / 5, 1] [0, 56 / 100, 3 / 10, 0]
      [0, 0, -(3 / 10), 0] (1 / 2) (1 / 10) (9 / 10) 1 = 2 := by
  have hE8p : (0 : ℝ) < Real.exp (-(49 / 8)) := Real.exp_pos _
  have hE2p : (0 : ℝ) < Real.exp (-(49 / 200)) := Real.exp_pos _
  have hc0 : ¬ (3 / 5 + 3 / 50 * Real.exp (-(49 / 200 : ℝ))
      ≤ 3 / 50 * Real.exp (-(49 / 8))) := by
    nlinarith [cexbump_E8_lt]
  have hc1 : ¬ (3 / 5 + 3 / 50 * Real.exp (-(49 / 200 : ℝ)) ≤ 31 / 50) := by
    nlinarith [cexbump_E2_gt]
  simp only [fbmIt, cexbump_U, cexbump_L, cexbump_Tnew, npArgmax,
    cexbump_max, List.findIdx_cons]
  rw [decide_eq_false hc0, decide_eq_false hc1, decide_eq_true (le_refl _)]
  rfl

/-- Counterexample for C2: on the airfoil `x = [0, 1/2, 3/5, 1]`,
`yu = [0, 0.56, 0.3, 0]`, `yl = [0, 0, -0.3, 0]` (thickness nonnegative,
maximum thickness `t0 = 3/5 > 0`), the Gaussian bump
`xc = 1/2, h = 1/10, s = 9/10, side = +1, n_order = 0` yields a new
airfoil whose maximum thickness is `31/50`, not `t0 = 3/5`: the rescale
of the lower side fixes the thickness only at the post-bump argmax
(index 2), while the bumped upper surface at `x = 1/2` (where the lower
surface is 0) now exceeds `t0`. -/
theorem foil_bump_modify_global_max_cex :
    npMax (List.zipWith (fun a b => a - b)
      [(0 : ℝ), 56 / 100, 3 / 10, 0] [0, 0, -(3 / 10), 0]) = 3 / 5 ∧
    npMax (List.zipWith (fun a b => a - b)
        (foil_bump_modify realT [0, 1 / 2, 3 / 5, 1]
          [0, 56 / 100, 3 / 10, 0] [0, 0, -(3 / 10), 0]
          (1 / 2) (1 / 10) (9 / 10) 1).1
        (foil_bump_modify realT [0, 1 / 2, 3 / 5, 1]
          [0, 56 / 100, 3 / 10, 0] [0, 0, -(3 / 10), 0]
          (1 / 2) (1 / 10) (9 / 10) 1).2)
      = 31 / 50 ∧
    (31 / 50 : ℝ) ≠ 3 / 5 := by
  have hE8p : (0 : ℝ) < Real.exp (-(49 / 8)) := Real.exp_pos _
  have hE2p : (0 : ℝ) < Real.exp (-(49 / 200)) := Real.exp_pos _
  refine ⟨cexbump_t0, ?_, by norm_num⟩
  have hgetU : ([3 / 50 * Real.exp (-(49 / 8)), 31 / 50,
      3 / 10 + 3 / 50 * Real.exp (-(49 / 200)),
      3 / 50 * Real.exp (-(49 / 8))] : List ℝ).getD 2 0
      = 3 / 10 + 3 / 50 * Real.exp (-(49 / 200)) := by
    simp [List.getD]
  have hgetL : ([0, 0, -(3 / 10), 0] : List ℝ).getD 2 0 = -(3 / 10) := by
    simp [List.getD]
  have hP : foil_bump_modify realT [0, 1 / 2, 3 / 5, 1]
      [0, 56 / 100, 3 / 10, 0] [0, 0, -(3 / 10), 0]
      (1 / 2) (1 / 10) (9 / 10) 1
      = ([3 / 50 * Real.exp (-(49 / 8)), 31 / 50,
          3 / 10 + 3 / 50 * Real.exp (-(49 / 200)),
          3 / 50 * Real.exp (-(49 / 8))],
         [0, 0, -(3 / 10) + 3 / 50 * Real.exp (-(49 / 200)), 0]) := by
    simp only [foil_bump_modify, if_pos (show (0 : ℤ) < 1 by norm_num),
      cexbump_U, cexbump_L, cexbump_it, cexbump_t0, hgetU, hgetL]
    rw [abs_of_pos (by positivity), abs_of_neg (by norm_num)]
    simp only [List.map_cons, List.map_nil, mul_zero, Prod.mk.injEq,
      List.cons.injEq, and_true]
    refine ⟨trivial, trivial, trivial, by ring⟩
  rw [hP]
  have hz : List.zipWith (fun a b => a - b)
      [3 / 50 * Real.exp (-(49 / 8)), 31 / 50,
        3 / 10 + 3 / 50 * Real.exp (-(49 / 200)),
        3 / 50 * Real.exp (-(49 / 8))]
      [(0 : ℝ), 0, -(3 / 10) + 3 / 50 * Real.exp (-(49 / 200)), 0]
      = [3 / 50 * Real.exp (-(49 / 8)), 31 / 50, 3 / 5,
         3 / 50 * Real.exp (-(49 / 8))] := by
    simp only [List.zipWith_cons_cons, List.zipWith_nil_right,
      List.cons.injEq, and_true]
    refine ⟨by ring, by ring, by ring, by ring⟩
  rw [hz]
  have h1 : 3 / 50 * Real.exp (-(49 / 8 : ℝ)) ≤ 31 / 50 := by
    nlinarith [cexbump_E8_lt]
  have h2 : (3 / 5 : ℝ) ≤ 31 / 50 := by norm_num
  simp only [npMax, List.headD_cons, List.foldl_cons, List.foldl_nil]
  rw [max_self, max_eq_right h1, max_eq_left h2, max_eq_left h1]

end Claims

end CstModeling
